import Mathlib

/-!
Shallow embedding of the tabular feature-preparation pipeline of the
regularization notebook: null-ratio / dominance-ratio column selection,
constant imputation (`SimpleImputer(strategy='constant', fill_value=0)`),
min-max scaling (`MinMaxScaler`), one-hot encoding
(`OneHotEncoder(handle_unknown='ignore')`), feature assembly
(`pd.concat(axis=1)`), and the fit/predict contract of the linear models
(`LinearRegression` / `Ridge` / `Lasso`).

Numeric cell values are rationals; a possibly-missing cell is an `Option`.
A numeric table is column-major: a list of columns, each a list of cells.
-/

namespace Pipeline

/-- A numeric column with possibly-missing entries (NaN ↦ `none`). -/
abbrev NumCol := List (Option ℚ)

/-- `SimpleImputer(strategy='constant', fill_value=fill)` applied to one
column: every missing entry becomes `fill`, present entries pass through. -/
def imputeCol (fill : ℚ) (c : NumCol) : List ℚ :=
  c.map (fun v => v.getD fill)

/-- Minimum of a column's values (`MinMaxScaler.fit` records `data_min_`);
empty column defaults to 0. -/
def colMin : List ℚ → ℚ
  | [] => 0
  | x :: xs => xs.foldl min x

/-- Maximum of a column's values (`MinMaxScaler.fit` records `data_max_`);
empty column defaults to 0. -/
def colMax : List ℚ → ℚ
  | [] => 0
  | x :: xs => xs.foldl max x

/-- The fit state of the numeric side of the pipeline: the imputer's
constant fill value together with the per-column `(data_min_, data_max_)`
recorded by `MinMaxScaler.fit` on the imputed reference table. -/
structure NumFitParams where
  fill : ℚ
  stats : List (ℚ × ℚ)
deriving Repr, DecidableEq

/-- `fit` of the numeric transformer on a reference table: impute each
column with the constant, then record its min and max. -/
def numericFit (fill : ℚ) (t : List NumCol) : NumFitParams :=
  ⟨fill, t.map (fun c => ((colMin (imputeCol fill c)), (colMax (imputeCol fill c))))⟩

/-- `MinMaxScaler.transform` on a single value: `(x - min) / (max - min)`,
with a zero range replaced by 1 in the denominator (sklearn's
`_handle_zeros_in_scale`), so a degenerate column divides by 1 instead of 0. -/
def scaleVal (mn mx x : ℚ) : ℚ :=
  (x - mn) / (if mx - mn = 0 then 1 else mx - mn)

/-- `transform` of the numeric transformer: impute with the recorded fill
value, then rescale each column with its recorded min/max. Reads the fit
state, returns only the transformed table. -/
def numericTransform (p : NumFitParams) (t : List NumCol) : List (List ℚ) :=
  List.zipWith (fun st c => (imputeCol p.fill c).map (scaleVal st.1 st.2)) p.stats t

/-- Mutable-state view of the imputer+scaler pair, for the frame-effect
claim: the fit parameters the object holds, `none` before `fit` ran. -/
structure ScalerState where
  fitted : Option NumFitParams
deriving Repr, DecidableEq

/-- Pipeline error kinds (spec §7). -/
inductive Err where
  | schemaMismatch
  | invalidState
deriving Repr, DecidableEq

/-- `fit` as a state update: overwrites the stored parameters. -/
def fitStep (fill : ℚ) (t : List NumCol) (_s : ScalerState) : ScalerState :=
  ⟨some (numericFit fill t)⟩

/-- `transform` as a state transition: fails before `fit`; otherwise
produces the transformed table and the (untouched) state. -/
def transformStep (t : List NumCol) (s : ScalerState) :
    Except Err (List (List ℚ) × ScalerState) :=
  match s.fitted with
  | none => .error .invalidState
  | some p => .ok (numericTransform p t, s)

/-- Run a sequence of `transform` calls, threading the state exactly as the
notebook's repeated `scaler.transform(...)` calls do (a failed call leaves
the state as it was). -/
def runTransforms (s : ScalerState) : List (List NumCol) → ScalerState
  | [] => s
  | t :: ts =>
      match transformStep t s with
      | .error _ => runTransforms s ts
      | .ok (_, s') => runTransforms s' ts

/-! ### Categorical transformer -/

/-- A categorical column: possibly-missing string cells. -/
abbrev CatCol := List (Option String)

/-- `fillna(value='missing')` on one cell. -/
def fillMissing (v : Option String) : String := v.getD "missing"

/-- `OneHotEncoder.fit` on one reference column: the distinct values seen
after the missing-token replacement (the encoder's `categories_` for that
column; only the set of values matters to the claims, so the dedup order
is the embedding's choice). -/
def catFit (c : CatCol) : List String :=
  (c.map fillMissing).dedup

/-- `OneHotEncoder(handle_unknown='ignore').transform` on one cell: one
indicator per fitted category, 1 where the (missing-filled) value equals
that category, 0 elsewhere; a value absent from `cats` yields all zeros
and never an error or a new column. -/
def oneHot (cats : List String) (v : Option String) : List ℚ :=
  cats.map (fun c => if c = fillMissing v then 1 else 0)

/-! ### Column profiles and the selector -/

/-- Per-column profile computed from the reference table: null ratio for
every column, and for categorical columns the ratio of the most frequent
value (`value_counts` after the missing-token fill). -/
structure ColumnProfile where
  name : String
  nullRatio : ℚ
  isCat : Bool
  domRatio : ℚ
deriving Repr, DecidableEq

/-- `null_cols_to_drop`: columns whose null ratio strictly exceeds 0.10
(`null_perc.loc[null_perc > .1]`). -/
def nullColsToDrop (ps : List ColumnProfile) : List String :=
  (ps.filter (fun p => (1 : ℚ)/10 < p.nullRatio)).map (·.name)

/-- `col_to_drop`: categorical columns whose dominant-value ratio strictly
exceeds 0.90 (`col_series[0]/len(X_train_cat) > .9`). -/
def domColsToDrop (ps : List ColumnProfile) : List String :=
  (ps.filter (fun p => p.isCat && (9 : ℚ)/10 < p.domRatio)).map (·.name)

/-- The selector's final drop-set: both drops are applied in sequence, so
the set of dropped columns is the union of the two lists. -/
def fullDropSet (ps : List ColumnProfile) : List String :=
  nullColsToDrop ps ++ domColsToDrop ps

/-! ### Dropping columns from a table -/

/-- `DataFrame.drop(labels, axis=1)` with the default `errors='raise'`:
if some label is absent from the column list the call raises `KeyError`
(a schema mismatch) and produces no table; otherwise it returns the
table without the named columns, the others kept in order. The table is
a list of `(name, cells)` columns. -/
def dropCols (drops : List String) (t : List (String × List ℚ)) :
    Except Err (List (String × List ℚ)) :=
  if drops.all (fun d => t.any (fun c => c.1 = d)) then
    .ok (t.filter (fun c => !(drops.contains c.1)))
  else
    .error .schemaMismatch

/-- The notebook cell `X_test = X_test.drop(cols, axis=1)` as a step on the
variable's binding: on success the binding becomes the new table, on a
raised error the assignment never happens and the binding keeps the old
table, with the error surfaced. -/
def dropCellStep (drops : List String) (t : List (String × List ℚ)) :
    (List (String × List ℚ)) × Option Err :=
  match dropCols drops t with
  | .ok t' => (t', none)
  | .error e => (t, some e)

/-! ### Feature assembler -/

/-- A row-major feature table: named columns and rows of rationals. -/
structure FeatTable where
  cols : List String
  rows : List (List ℚ)
deriving Repr, DecidableEq

/-- `ohe.get_feature_names(input_features=...)`: one output name per
(column, fitted category) pair, in fit order. -/
def oheColNames (vocabs : List (String × List String)) : List String :=
  vocabs.flatMap (fun p => p.2.map (fun v => p.1 ++ "_" ++ v))

/-- `pd.concat([numeric, categorical], axis=1)` on two same-length blocks
with a fresh range index: numeric block's columns first, then the one-hot
indicator columns named from the fit-time vocabularies; each output row is
the numeric row followed by the categorical row. -/
def assemble (numCols : List String) (vocabs : List (String × List String))
    (numRows catRows : List (List ℚ)) : FeatTable :=
  ⟨numCols ++ oheColNames vocabs, List.zipWith (· ++ ·) numRows catRows⟩

/-! ### Linear models -/

/-- Dot product of a feature row with a weight vector. -/
def dot (xs ws : List ℚ) : ℚ :=
  (List.zipWith (· * ·) xs ws).sum

/-- Sum of squared weights (the ridge penalty, intercept excluded). -/
def sqSum (ws : List ℚ) : ℚ :=
  (ws.map (fun w => w * w)).sum

/-- Residual sum of squares of weights `w` and intercept `b` on feature
rows `X` with targets `y`. -/
def rss (X : List (List ℚ)) (y : List ℚ) (w : List ℚ) (b : ℚ) : ℚ :=
  ((X.zip y).map (fun p => (p.2 - dot p.1 w - b) ^ 2)).sum

/-- `(w, b)` is a ridge fit at penalty `lam`: it minimizes
`rss + lam * Σ w²` over all candidate weights and intercepts (the
objective sklearn's `Ridge` minimizes). -/
def IsRidgeMin (X : List (List ℚ)) (y : List ℚ) (lam : ℚ)
    (w : List ℚ) (b : ℚ) : Prop :=
  ∀ w' b', rss X y w b + lam * sqSum w ≤ rss X y w' b' + lam * sqSum w'

/-- A fitted linear model: the feature columns seen at fit time, one
weight per column, and an intercept. -/
structure FittedModel where
  cols : List String
  weights : List ℚ
  intercept : ℚ
deriving Repr, DecidableEq

/-- Modelled from the spec: the notebook's `linreg.predict` is a call into
an external library whose implementation is not in the repository; the
spec's contract is that predict "returns one real value per row using the
fitted weights; must reject feature tables whose column set does not match
the one used at fit time". -/
def predict (m : FittedModel) (ft : FeatTable) : Except Err (List ℚ) :=
  if ft.cols = m.cols then
    .ok (ft.rows.map (fun r => dot r m.weights + m.intercept))
  else
    .error .schemaMismatch

/-- What `fit` followed by `transform` on the same table does to one
column: impute, then rescale with that column's own min/max. -/
def fitTransformCol (fill : ℚ) (c : NumCol) : List ℚ :=
  (imputeCol fill c).map
    (scaleVal (colMin (imputeCol fill c)) (colMax (imputeCol fill c)))

/-! ## Helper lemmas -/

lemma foldl_min_le_init (l : List ℚ) : ∀ a : ℚ, l.foldl min a ≤ a := by
  induction l with
  | nil => intro a; exact le_refl a
  | cons b bs ih => intro a; exact le_trans (ih (min a b)) (min_le_left a b)

lemma foldl_min_le_mem {x : ℚ} {l : List ℚ} (hx : x ∈ l) :
    ∀ a : ℚ, l.foldl min a ≤ x := by
  induction l with
  | nil => cases hx
  | cons b bs ih =>
    intro a
    rcases List.mem_cons.mp hx with h | h
    · subst h
      exact le_trans (foldl_min_le_init bs (min a x)) (min_le_right a x)
    · exact ih h (min a b)

lemma init_le_foldl_max (l : List ℚ) : ∀ a : ℚ, a ≤ l.foldl max a := by
  induction l with
  | nil => intro a; exact le_refl a
  | cons b bs ih => intro a; exact le_trans (le_max_left a b) (ih (max a b))

lemma mem_le_foldl_max {x : ℚ} {l : List ℚ} (hx : x ∈ l) :
    ∀ a : ℚ, x ≤ l.foldl max a := by
  induction l with
  | nil => cases hx
  | cons b bs ih =>
    intro a
    rcases List.mem_cons.mp hx with h | h
    · subst h
      exact le_trans (le_max_right a x) (init_le_foldl_max bs (max a x))
    · exact ih h (max a b)

lemma colMin_le_of_mem {x : ℚ} {l : List ℚ} (hx : x ∈ l) : colMin l ≤ x := by
  cases l with
  | nil => cases hx
  | cons a as =>
    rcases List.mem_cons.mp hx with h | h
    · subst h; exact foldl_min_le_init as x
    · exact foldl_min_le_mem h a

lemma le_colMax_of_mem {x : ℚ} {l : List ℚ} (hx : x ∈ l) : x ≤ colMax l := by
  cases l with
  | nil => cases hx
  | cons a as =>
    rcases List.mem_cons.mp hx with h | h
    · subst h; exact init_le_foldl_max as x
    · exact mem_le_foldl_max h a

lemma runTransforms_eq_self (ts : List (List NumCol)) :
    ∀ s : ScalerState, runTransforms s ts = s := by
  induction ts with
  | nil => intro s; rfl
  | cons t ts ih =>
    intro s
    cases h : s.fitted with
    | none => simp [runTransforms, transformStep, h, ih]
    | some p => simp [runTransforms, transformStep, h, ih]

/-! ## Claim theorems -/

/-- C1: once `fit` has recorded the fill value and per-column min/max from
the reference table, running `transform` any number of times on any tables
leaves the recorded fit parameters exactly as `fit` wrote them: `transform`
reads the fit state but never writes it, so no held-out table ever updates
the min/max. -/
theorem transform_preserves_fit_params (fill : ℚ) (tRef : List NumCol)
    (s0 : ScalerState) (ts : List (List NumCol)) :
    (runTransforms (fitStep fill tRef s0) ts).fitted = some (numericFit fill tRef) := by
  rw [runTransforms_eq_self]
  rfl

/-- C5: on the reference column `A = [0, 10, 20, missing]` with fill value
0, `fit` imputes to `[0, 10, 20, 0]` and records min 0 and max 20;
`transform` of that column gives `[0, 1/2, 1, 0]`, and a held-out value 30
passes through the affine map to `(30 - 0) / 20 = 3/2` without clamping. -/
theorem numeric_transform_example_A :
    imputeCol 0 [some 0, some 10, some 20, none] = [0, 10, 20, 0] ∧
    (numericFit 0 [[some 0, some 10, some 20, none]]).stats = [(0, 20)] ∧
    numericTransform (numericFit 0 [[some 0, some 10, some 20, none]])
      [[some 0, some 10, some 20, none]] = [[0, 1/2, 1, 0]] ∧
    numericTransform (numericFit 0 [[some 0, some 10, some 20, none]])
      [[some 30]] = [[3/2]] := by
  refine ⟨?_, ?_, ?_, ?_⟩ <;>
    norm_num [imputeCol, numericFit, numericTransform, scaleVal, colMin, colMax,
      min_def, max_def]

lemma numericTransform_fit_self (fill : ℚ) (t : List NumCol) :
    numericTransform (numericFit fill t) t = t.map (fitTransformCol fill) := by
  unfold numericTransform numericFit fitTransformCol
  induction t with
  | nil => rfl
  | cons c cs ih => simpa using ih

lemma fitTransformCol_nondegenerate {fill : ℚ} {c : NumCol}
    (hne : colMin (imputeCol fill c) ≠ colMax (imputeCol fill c)) :
    ∀ y ∈ fitTransformCol fill c, 0 ≤ y ∧ y ≤ 1 := by
  intro y hy
  set mn := colMin (imputeCol fill c) with hmn
  set mx := colMax (imputeCol fill c) with hmx
  rcases List.mem_map.mp hy with ⟨x, hxf, hxy⟩
  have hxlo : mn ≤ x := colMin_le_of_mem hxf
  have hxhi : x ≤ mx := le_colMax_of_mem hxf
  have hlt : mn < mx := lt_of_le_of_ne (le_trans hxlo hxhi) hne
  have hpos : 0 < mx - mn := by linarith
  have hden : mx - mn ≠ 0 := ne_of_gt hpos
  subst hxy
  unfold scaleVal
  rw [if_neg hden]
  constructor
  · exact div_nonneg (by linarith) (le_of_lt hpos)
  · rw [div_le_one hpos]
    linarith

lemma fitTransformCol_degenerate {fill : ℚ} {c : NumCol}
    (heq : colMin (imputeCol fill c) = colMax (imputeCol fill c)) :
    ∀ y ∈ fitTransformCol fill c, y = 0 := by
  intro y hy
  rcases List.mem_map.mp hy with ⟨x, hxf, hxy⟩
  have hxlo : colMin (imputeCol fill c) ≤ x := colMin_le_of_mem hxf
  have hxhi : x ≤ colMax (imputeCol fill c) := le_colMax_of_mem hxf
  have hx : x = colMin (imputeCol fill c) := le_antisymm (heq ▸ hxhi) hxlo
  subst hxy
  unfold scaleVal
  rw [← heq, hx]
  simp

/-- C6: `fit` then `transform` on the reference table itself rescales each
column with its own min/max; every value of a column whose observed min
and max differ lands in `[0, 1]`, and a degenerate column (min = max) maps
to the single constant 0. -/
theorem numeric_fit_transform_self_range (fill : ℚ) (t : List NumCol) :
    numericTransform (numericFit fill t) t = t.map (fitTransformCol fill) ∧
    ∀ c ∈ t,
      (colMin (imputeCol fill c) ≠ colMax (imputeCol fill c) →
        ∀ y ∈ fitTransformCol fill c, 0 ≤ y ∧ y ≤ 1) ∧
      (colMin (imputeCol fill c) = colMax (imputeCol fill c) →
        ∀ y ∈ fitTransformCol fill c, y = 0) := by
  refine ⟨numericTransform_fit_self fill t, ?_⟩
  intro c _hc
  exact ⟨fun hne => fitTransformCol_nondegenerate hne,
    fun heq => fitTransformCol_degenerate heq⟩

/-- Closed instance of `numeric_fit_transform_self_range`: the column
`[0, 2, missing]` with fill 1 is non-degenerate, and its self-transformed
value 1/2 lies in `[0, 1]`. -/
theorem numeric_fit_transform_self_range_witness :
    0 ≤ (1 : ℚ)/2 ∧ (1 : ℚ)/2 ≤ 1 :=
  ((numeric_fit_transform_self_range 1 [[some 0, some 2, none]]).2
      [some 0, some 2, none] (by simp)).1
    (by norm_num [imputeCol, colMin, colMax, min_def, max_def])
    (1/2)
    (by norm_num [fitTransformCol, imputeCol, colMin, colMax, scaleVal,
      min_def, max_def])

/-- C10: when a reference column is degenerate after imputation (observed
min equals observed max), the fitted scaler — whose zero denominator is
replaced by 1 rather than divided by, so `scaleVal` is total and raises no
error — maps every reference value of the column to exactly 0, and maps
any value equal to that constant (in any held-out table) to exactly 0. -/
theorem degenerate_column_scales_to_zero (fill : ℚ) (c : NumCol)
    (hdeg : colMin (imputeCol fill c) = colMax (imputeCol fill c)) :
    (∀ y ∈ fitTransformCol fill c, y = 0) ∧
    (∀ v : ℚ, v = colMin (imputeCol fill c) →
      scaleVal (colMin (imputeCol fill c)) (colMax (imputeCol fill c)) v = 0) := by
  constructor
  · exact fitTransformCol_degenerate hdeg
  · intro v hv
    unfold scaleVal
    rw [hv, hdeg, sub_self, if_pos rfl]
    simp

/-- Closed instance of `degenerate_column_scales_to_zero`: a held-out
value 5 equal to the constant of the degenerate reference column `[5, 5]`
scales to exactly 0. -/
theorem degenerate_column_scales_to_zero_witness :
    scaleVal (colMin (imputeCol 0 [some 5, some 5]))
      (colMax (imputeCol 0 [some 5, some 5])) 5 = 0 :=
  (degenerate_column_scales_to_zero 0 [some 5, some 5]
      (by norm_num [imputeCol, colMin, colMax, min_def, max_def])).2 5
    (by norm_num [imputeCol, colMin, colMax, min_def])

lemma count_one_indicator {w : String} :
    ∀ {cats : List String}, cats.Nodup → w ∈ cats →
      ((cats.map (fun c => if c = w then (1 : ℚ) else 0)).count 1) = 1 := by
  intro cats
  induction cats with
  | nil => intro _ h; cases h
  | cons a as ih =>
    intro hnd hmem
    rcases List.mem_cons.mp hmem with h | h
    · subst h
      have hnot : w ∉ as := (List.nodup_cons.mp hnd).1
      have hzero : ((as.map (fun c => if c = w then (1 : ℚ) else 0)).count 1) = 0 := by
        rw [List.count_eq_zero]
        intro hmem1
        rcases List.mem_map.mp hmem1 with ⟨c, hc, hcv⟩
        by_cases hcw : c = w
        · exact hnot (hcw ▸ hc)
        · rw [if_neg hcw] at hcv; norm_num at hcv
      simp [List.count_cons, hzero]
    · have hne : a ≠ w := by
        intro haw
        exact (List.nodup_cons.mp hnd).1 (haw ▸ h)
      have hrest := ih (List.nodup_cons.mp hnd).2 h
      simp [List.count_cons, hne, hrest]

/-- C2: for a fitted one-hot encoder with `handle_unknown='ignore'`, a cell
value never seen during fit encodes to all zeros across that column's
indicator set — no error, no new indicator column (the output length is
always the fitted vocabulary's length) — and a value seen during fit
encodes to exactly one 1 in that set with 0 everywhere else. -/
theorem onehot_exclusivity (ref : CatCol) (v : Option String) :
    (oneHot (catFit ref) v).length = (catFit ref).length ∧
    (fillMissing v ∉ catFit ref → ∀ y ∈ oneHot (catFit ref) v, y = 0) ∧
    (fillMissing v ∈ catFit ref →
      ((oneHot (catFit ref) v).count 1 = 1 ∧
        ∀ y ∈ oneHot (catFit ref) v, y = 0 ∨ y = 1)) := by
  refine ⟨by simp [oneHot], ?_, ?_⟩
  · intro hnot y hy
    rcases List.mem_map.mp hy with ⟨c, hc, hcy⟩
    subst hcy
    rw [if_neg]
    intro hcv
    exact hnot (hcv ▸ hc)
  · intro hmem
    have hnd : (catFit ref).Nodup := List.nodup_dedup _
    constructor
    · exact count_one_indicator hnd hmem
    · intro y hy
      rcases List.mem_map.mp hy with ⟨c, hc, hcy⟩
      subst hcy
      by_cases h : c = fillMissing v <;> simp [h]

/-- Closed instance of `onehot_exclusivity`: encoding the seen value "RL"
against the vocabulary fitted on `[RL, RM, missing]` yields exactly one 1. -/
theorem onehot_exclusivity_witness :
    (oneHot (catFit [some "RL", some "RM", none]) (some "RL")).count 1 = 1 :=
  ((onehot_exclusivity [some "RL", some "RM", none] (some "RL")).2.2
    (by decide)).1

/-- C3: the selector's final drop-set is exactly the union of the columns
whose null ratio strictly exceeds 0.10 and the categorical columns whose
dominant-value ratio strictly exceeds 0.90 (so a ratio exactly at a
threshold keeps the column), and its membership is invariant under any
permutation of the column-profile list. -/
theorem selector_dropset_union_order_independent
    (ps ps' : List ColumnProfile) (hperm : ps.Perm ps') (c : String) :
    (c ∈ fullDropSet ps ↔
      ((∃ p ∈ ps, p.name = c ∧ (1 : ℚ)/10 < p.nullRatio) ∨
        (∃ p ∈ ps, p.name = c ∧ p.isCat = true ∧ (9 : ℚ)/10 < p.domRatio))) ∧
    (c ∈ fullDropSet ps ↔ c ∈ fullDropSet ps') := by
  have hchar : ∀ qs : List ColumnProfile, c ∈ fullDropSet qs ↔
      ((∃ p ∈ qs, p.name = c ∧ (1 : ℚ)/10 < p.nullRatio) ∨
        (∃ p ∈ qs, p.name = c ∧ p.isCat = true ∧ (9 : ℚ)/10 < p.domRatio)) := by
    intro qs
    simp only [fullDropSet, List.mem_append, nullColsToDrop, domColsToDrop,
      List.mem_map, List.mem_filter, Bool.and_eq_true, decide_eq_true_eq]
    constructor
    · rintro (⟨p, ⟨hp, hnull⟩, hname⟩ | ⟨p, ⟨hp, hcat, hdom⟩, hname⟩)
      · exact Or.inl ⟨p, hp, hname, hnull⟩
      · exact Or.inr ⟨p, hp, hname, hcat, hdom⟩
    · rintro (⟨p, hp, hname, hnull⟩ | ⟨p, hp, hname, hcat, hdom⟩)
      · exact Or.inl ⟨p, ⟨hp, hnull⟩, hname⟩
      · exact Or.inr ⟨p, ⟨hp, hcat, hdom⟩, hname⟩
  refine ⟨hchar ps, ?_⟩
  rw [hchar ps, hchar ps']
  have hmm : ∀ (P : ColumnProfile → Prop),
      (∃ p ∈ ps, P p) ↔ (∃ p ∈ ps', P p) := by
    intro P
    constructor
    · rintro ⟨p, hp, hP⟩; exact ⟨p, hperm.mem_iff.mp hp, hP⟩
    · rintro ⟨p, hp, hP⟩; exact ⟨p, hperm.mem_iff.mpr hp, hP⟩
  exact or_congr (hmm _) (hmm _)

/-- Closed instance of `selector_dropset_union_order_independent`: on a
concrete profile list and its reversal, membership of "a" in the drop-set
agrees. -/
theorem selector_dropset_witness :
    ("a" ∈ fullDropSet
        [⟨"a", 1/5, false, 0⟩, ⟨"b", 0, true, 19/20⟩, ⟨"c", 1/10, true, 9/10⟩] ↔
      "a" ∈ fullDropSet
        ([⟨"a", 1/5, false, 0⟩, ⟨"b", 0, true, 19/20⟩,
          ⟨"c", 1/10, true, 9/10⟩] : List ColumnProfile).reverse) :=
  (selector_dropset_union_order_independent
    [⟨"a", 1/5, false, 0⟩, ⟨"b", 0, true, 19/20⟩, ⟨"c", 1/10, true, 9/10⟩]
    ([⟨"a", 1/5, false, 0⟩, ⟨"b", 0, true, 19/20⟩,
      ⟨"c", 1/10, true, 9/10⟩] : List ColumnProfile).reverse
    (List.reverse_perm _).symm "a").2

/-- C7: dropping a set of column names from a held-out table that lacks one
of them fails with a schema-mismatch error instead of silently skipping,
and the failed cell leaves the table binding unchanged. -/
theorem drop_missing_column_fails (drops : List String)
    (t : List (String × List ℚ)) (d : String) (hd : d ∈ drops)
    (habs : ∀ cl ∈ t, cl.1 ≠ d) :
    dropCols drops t = .error .schemaMismatch ∧
    dropCellStep drops t = (t, some .schemaMismatch) := by
  have hcond : drops.all (fun x => t.any (fun cl => cl.1 = x)) = false := by
    cases hall : drops.all (fun x => t.any (fun cl => cl.1 = x)) with
    | false => rfl
    | true =>
      exfalso
      have hany := List.all_eq_true.mp hall d hd
      rcases List.any_eq_true.mp hany with ⟨cl, hcl, hcld⟩
      exact habs cl hcl (by simpa using hcld)
  constructor
  · simp [dropCols, hcond]
  · simp [dropCellStep, dropCols, hcond]

/-- Closed instance of `drop_missing_column_fails`: dropping "x" from a
table with only column "a" errors and leaves the binding as it was. -/
theorem drop_missing_column_fails_witness :
    dropCellStep ["x"] [("a", ([] : List ℚ))] =
      ([("a", ([] : List ℚ))], some .schemaMismatch) :=
  (drop_missing_column_fails ["x"] [("a", ([] : List ℚ))] "x"
    (by decide) (by decide)).2

/-- C4: assembled from the same fit state (numeric column list and one-hot
vocabularies), the reference and held-out feature tables have identical
column lists — numeric block first, then the fit-ordered indicator
columns — and each output keeps its input's row count and row order (row
`i` of the output is row `i` of the numeric block followed by row `i` of
the categorical block). -/
theorem assembler_schema_parity (numCols : List String)
    (vocabs : List (String × List String)) (aN aC bN bC : List (List ℚ))
    (haLen : aN.length = aC.length) (hbLen : bN.length = bC.length) :
    (assemble numCols vocabs aN aC).cols = (assemble numCols vocabs bN bC).cols ∧
    (assemble numCols vocabs aN aC).cols = numCols ++ oheColNames vocabs ∧
    (assemble numCols vocabs aN aC).rows.length = aN.length ∧
    (assemble numCols vocabs bN bC).rows.length = bN.length ∧
    (∀ i (h1 : i < aN.length) (h2 : i < (assemble numCols vocabs aN aC).rows.length),
      (assemble numCols vocabs aN aC).rows.get ⟨i, h2⟩ =
        aN.get ⟨i, h1⟩ ++ aC.get ⟨i, haLen ▸ h1⟩) := by
  refine ⟨rfl, rfl, ?_, ?_, ?_⟩
  · simp [assemble, List.length_zipWith, haLen]
  · simp [assemble, List.length_zipWith, hbLen]
  · intro i h1 h2
    simp only [assemble, List.get_eq_getElem]
    rw [List.getElem_zipWith]

/-- Closed instance of `assembler_schema_parity`: a one-row reference pair
and a two-row held-out pair assembled from the same fit state get the same
column list. -/
theorem assembler_schema_parity_witness :
    (assemble ["n"] [("z", ["a", "b"])] [[1]] [[0, 1]]).cols =
      (assemble ["n"] [("z", ["a", "b"])] [[2], [3]] [[1, 0], [0, 0]]).cols :=
  (assembler_schema_parity ["n"] [("z", ["a", "b"])] [[1]] [[0, 1]]
    [[2], [3]] [[1, 0], [0, 0]] rfl rfl).1

/-- C8: for a fitted model, `predict` on a feature table whose column list
matches the fit-time column list returns exactly one value per input row
(the dot product plus intercept), and `predict` rejects a table whose
column set differs with a schema-mismatch error. -/
theorem predict_contract (m : FittedModel) (ft : FeatTable) :
    (ft.cols = m.cols →
      predict m ft = .ok (ft.rows.map (fun r => dot r m.weights + m.intercept)) ∧
      ∃ ys, predict m ft = .ok ys ∧ ys.length = ft.rows.length) ∧
    (ft.cols ≠ m.cols → predict m ft = .error .schemaMismatch) := by
  constructor
  · intro h
    refine ⟨by simp [predict, h],
      ft.rows.map (fun r => dot r m.weights + m.intercept),
      by simp [predict, h], by simp⟩
  · intro h
    simp [predict, h]

/-- Closed instance of `predict_contract`: a model fitted on column "a"
with weight 2 and intercept 1 predicts 7 on the single row `[3]`. -/
theorem predict_contract_witness :
    predict ⟨["a"], [2], 1⟩ ⟨["a"], [[3]]⟩ = .ok [7] := by
  have h := (predict_contract ⟨["a"], [2], 1⟩ ⟨["a"], [[3]]⟩).1 rfl
  rw [h.1]
  norm_num [dot]

lemma rss_nonneg (X : List (List ℚ)) (y : List ℚ) (w : List ℚ) (b : ℚ) :
    0 ≤ rss X y w b := by
  apply List.sum_nonneg
  intro x hx
  rcases List.mem_map.mp hx with ⟨p, _, hp⟩
  subst hp
  positivity

lemma sqSum_nonneg (ws : List ℚ) : 0 ≤ sqSum ws := by
  apply List.sum_nonneg
  intro x hx
  rcases List.mem_map.mp hx with ⟨v, _, hv⟩
  subst hv
  exact mul_self_nonneg v

/-- C9: for a fixed feature table and target vector, any map `f` from
penalty strength to a minimizer of the ridge objective has a
non-increasing squared-weight sum: for `0 ≤ λ₁ ≤ λ₂`, the squared-weight
sum at `λ₂` is at most the one at `λ₁`. -/
theorem ridge_weight_norm_monotone (X : List (List ℚ)) (y : List ℚ)
    (f : ℚ → List ℚ × ℚ)
    (hfit : ∀ lam, 0 ≤ lam → IsRidgeMin X y lam (f lam).1 (f lam).2)
    (l1 l2 : ℚ) (h0 : 0 ≤ l1) (h12 : l1 ≤ l2) :
    sqSum (f l2).1 ≤ sqSum (f l1).1 := by
  rcases eq_or_lt_of_le h12 with heq | hlt
  · rw [heq]
  · have h1 := hfit l1 h0 (f l2).1 (f l2).2
    have h2 := hfit l2 (le_trans h0 h12) (f l1).1 (f l1).2
    have key : (l2 - l1) * sqSum (f l2).1 ≤ (l2 - l1) * sqSum (f l1).1 := by
      ring_nf
      ring_nf at h1 h2
      linarith
    exact le_of_mul_le_mul_left key (sub_pos.mpr hlt)

/-- Closed instance of `ridge_weight_norm_monotone`: the constant
minimizer family `λ ↦ ([0], 0)` for `X = [[1]]`, `y = [0]` has
non-increasing squared-weight sum from penalty 1 to 2. -/
theorem ridge_weight_norm_monotone_witness :
    sqSum ((fun _ : ℚ => (([0] : List ℚ), (0 : ℚ))) 2).1 ≤
      sqSum ((fun _ : ℚ => (([0] : List ℚ), (0 : ℚ))) 1).1 :=
  ridge_weight_norm_monotone [[(1 : ℚ)]] [0]
    (fun _ : ℚ => (([0] : List ℚ), (0 : ℚ)))
    (by
      intro lam hlam w' b'
      show rss [[(1 : ℚ)]] [0] [0] 0 + lam * sqSum [0] ≤
        rss [[(1 : ℚ)]] [0] w' b' + lam * sqSum w'
      have hL : rss [[(1 : ℚ)]] [0] [0] 0 + lam * sqSum [0] = 0 := by
        simp [rss, dot, sqSum]
      rw [hL]
      exact add_nonneg (rss_nonneg _ _ _ _) (mul_nonneg hlam (sqSum_nonneg _)))
    1 2 (by norm_num) (by norm_num)

end Pipeline
